import Mathlib

/-!
Verification of `convert_flexiblecommand.py` (repository ASTI).

The script rewrites source lines that invoke
`emitCommand(FlexibleCommandFactory::create<Name>(<args>));` into calls of a
generic JSON builder.  We give a shallow embedding of the script over
`List Char` (Python strings are modelled as character lists; the relevant
characters are ASCII) and prove the specification claims about it.

The regular expression used by the script,
`emitCommand\(FlexibleCommandFactory::create(\w+)\((.*?)\)\);`,
is embedded by `searchCall` below: `re.search` tries every start position from
the left; at a given position the literal part must match, then `(\w+)` (greedy,
so: the maximal non-empty run of word characters, which must be followed by
`(`), then `(.*?)` lazily scans non-newline characters up to the first `));`.
-/

namespace ASTI

/-- Python `\w` on the ASCII range (the inputs are C++ source text):
letters, digits and underscore. -/
def isWordChar (c : Char) : Bool :=
  c.isAlphanum || c == '_'

/-- Python `\s` on the ASCII range: the six whitespace characters. -/
def isPySpace (c : Char) : Bool :=
  c == ' ' || c == '\t' || c == '\n' || c == '\r' || c == '\x0b' || c == '\x0c'

/-- The literal part of the search pattern. -/
def LIT : List Char := "emitCommand(FlexibleCommandFactory::create".data

/-- The closing literal `));` of the search pattern. -/
def CLOSE : List Char := [')', ')', ';']

/-- One value of the `COMMAND_MAPPINGS` table: the target JSON type tag and the
(informational) field list. -/
structure CommandMapping where
  type : String
  fields : List String
deriving DecidableEq

/-- The `COMMAND_MAPPINGS` dictionary of the script. -/
def COMMAND_MAPPINGS : List (String × CommandMapping) := [
  ("LoopStart", ⟨"LOOP_START", ["name", "iteration"]⟩),
  ("LoopEnd", ⟨"LOOP_END", ["iterations"]⟩),
  ("LoopEndComplete", ⟨"LOOP_END", ["iterations", "completed"]⟩),
  ("FunctionCallLoop", ⟨"FUNCTION_CALL", ["iteration", "completed"]⟩),
  ("SetupEnd", ⟨"SETUP_END", ["message"]⟩),
  ("IfStatement", ⟨"IF_STATEMENT", ["condition", "branch"]⟩),
  ("WhileLoopStart", ⟨"WHILE_LOOP", ["phase"]⟩),
  ("WhileLoopIteration", ⟨"WHILE_LOOP", ["iteration"]⟩),
  ("WhileLoopEnd", ⟨"WHILE_LOOP", ["iteration"]⟩),
  ("ForLoopStart", ⟨"FOR_LOOP", ["phase"]⟩),
  ("ForLoopIteration", ⟨"FOR_LOOP", ["iteration"]⟩),
  ("ForLoopEnd", ⟨"FOR_LOOP", ["iteration", "maxIterations"]⟩),
  ("DoWhileLoopStart", ⟨"DO_WHILE_LOOP", ["phase"]⟩),
  ("DoWhileLoopIteration", ⟨"DO_WHILE_LOOP", ["iteration"]⟩),
  ("DoWhileLoopEnd", ⟨"DO_WHILE_LOOP", ["iteration"]⟩),
  ("BreakStatement", ⟨"BREAK_STATEMENT", []⟩),
  ("ContinueStatement", ⟨"CONTINUE_STATEMENT", []⟩),
  ("SwitchStatement", ⟨"SWITCH_STATEMENT", ["discriminant"]⟩),
  ("SwitchCase", ⟨"SWITCH_CASE", ["value", "shouldExecute"]⟩),
  ("ToneWithDuration", ⟨"TONE", ["pin", "frequency", "duration"]⟩),
  ("Tone", ⟨"TONE", ["pin", "frequency"]⟩),
  ("NoTone", ⟨"NO_TONE", ["pin"]⟩),
  ("PinMode", ⟨"PIN_MODE", ["pin", "mode"]⟩),
  ("AnalogWrite", ⟨"ANALOG_WRITE", ["pin", "value"]⟩),
  ("Delay", ⟨"DELAY", ["milliseconds"]⟩),
  ("DelayMicroseconds", ⟨"DELAY_MICROSECONDS", ["microseconds"]⟩),
  ("SerialBegin", ⟨"SERIAL_BEGIN", ["baudRate"]⟩),
  ("SerialPrintln", ⟨"SERIAL_PRINTLN", ["message", "format"]⟩),
  ("SerialWrite", ⟨"SERIAL_WRITE", ["data"]⟩),
  ("SerialFlush", ⟨"SERIAL_FLUSH", []⟩),
  ("SerialTimeout", ⟨"SERIAL_TIMEOUT", ["timeout"]⟩)]

/-- The lazy part `(.*?)\)\);` of the pattern: starting at the current
position, scan over non-newline characters to the first occurrence of `));`;
return the scanned characters (group 2) and the remainder after `));`.
`none` when no such occurrence is reachable. -/
def findArgs : List Char → Option (List Char × List Char)
  | [] => none
  | c :: cs =>
    if CLOSE.isPrefixOf (c :: cs) then some ([], cs.drop 2)
    else if c = '\n' then none
    else (findArgs cs).map (fun p => (c :: p.1, p.2))

/-- Match the whole pattern anchored at the head of `s`: the literal `LIT`,
then the maximal non-empty word-character run (group 1, Python's greedy `\w+`
followed by the mandatory `(`), then `findArgs`.  Returns
(group 1, group 2, text after the match). -/
def matchCall (s : List Char) : Option (List Char × List Char × List Char) :=
  if LIT.isPrefixOf s then
    match (s.drop LIT.length).takeWhile isWordChar, (s.drop LIT.length).dropWhile isWordChar with
    | [], _ => none
    | n₀ :: n', '(' :: t3 =>
      match findArgs t3 with
      | some (args, rest) => some (n₀ :: n', args, rest)
      | none => none
    | _ :: _, _ => none
  else none

/-- `re.search` of the pattern: try `matchCall` at every position from the
left; also return the text before the match. -/
def searchCall : List Char → Option (List Char × List Char × List Char × List Char)
  | [] => none
  | c :: cs =>
    match matchCall (c :: cs) with
    | some (n, a, r) => some ([], n, a, r)
    | none =>
      match searchCall cs with
      | some (p, n, a, r) => some (c :: p, n, a, r)
      | none => none

/-- Python's `str.upper` on one character (`Char.toUpper`; the names in the
rewritten source are ASCII). -/
def pyUpperChar (c : Char) : Char := Char.toUpper c

/-- `replaceAllF old new fuel s`: worker for `pyReplace` (structural recursion
on `fuel`; intended use has `s.length ≤ fuel` and `old ≠ []`). -/
def replaceAllF (old new : List Char) : Nat → List Char → List Char
  | _, [] => []
  | 0, s => s
  | fuel + 1, c :: cs =>
    if old.isPrefixOf (c :: cs) then new ++ replaceAllF old new fuel ((c :: cs).drop old.length)
    else c :: replaceAllF old new fuel cs

/-- Python's `s.replace(old, new)`: replace every non-overlapping occurrence of
`old` in `s`, scanning from the left.  (The script only ever calls it with a
non-empty `old`, the matched call text.) -/
def pyReplace (old new s : List Char) : List Char :=
  replaceAllF old new s.length s

/-- The text matched by the whole pattern,
`emitCommand(FlexibleCommandFactory::create<name>(<args>));` — also the string
the unknown-command branch rebuilds with its f-string and passes to
`str.replace`. -/
def callText (name args : List Char) : List Char :=
  LIT ++ name ++ ['('] ++ args ++ CLOSE

/-- Literal piece `emitJSON(buildJSON("` shared by both output branches. -/
def KA : List Char := "emitJSON(buildJSON(\"".data

/-- Literal piece `", {})); // Converted from ` of the known-command output. -/
def KB : List Char := "\", \x7b\x7d)); // Converted from ".data

/-- Literal piece `", {})); // TODO: Add fields` of the unknown-command
replacement. -/
def UB : List Char := "\", \x7b\x7d)); // TODO: Add fields".data

/-- The replacement text of the unknown-command branch:
`emitJSON(buildJSON("<NAME-UPPERCASED>", {})); // TODO: Add fields`. -/
def unknownNew (name : List Char) : List Char :=
  KA ++ name.map pyUpperChar ++ UB

/-- The whole output line of the known-command branch (without the indent):
`emitJSON(buildJSON("<jsonType>", {})); // Converted from <name>`. -/
def knownOut (ty name : List Char) : List Char :=
  KA ++ ty ++ KB ++ name

/-- `convert_flexiblecommand_line` of the script, on character lists.
No match: the line is returned unchanged.  Unknown command: literal
`str.replace` of the matched call text.  Known command: a fresh line built
from the leading whitespace (`re.match(r'(\s*)', line).group(1)`), the mapped
JSON type and the command name. -/
def convertLine (line : List Char) : List Char :=
  match searchCall line with
  | none => line
  | some (_, name, args, _) =>
    match List.lookup (String.mk name) COMMAND_MAPPINGS with
    | none => pyReplace (callText name args) (unknownNew name) line
    | some m => line.takeWhile isPySpace ++ knownOut m.type.data name

/-- The script's `convert_flexiblecommand_line` on `String`. -/
def convert_flexiblecommand_line (s : String) : String :=
  String.mk (convertLine s.data)

/-- Greedy star matcher for a character class anchored at the head of the
input: the semantics of `re.match(r'(\s*)', line)` extracting group 1.  A
star always succeeds (possibly with the empty match), so this never returns
`none`; `convertE` below threads the `none` case to model the
`AttributeError` Python would raise on `.group(1)` if the match failed. -/
def matchStar (p : Char → Bool) : List Char → Option (List Char)
  | [] => some []
  | c :: cs => if p c then (matchStar p cs).map (fun t => c :: t) else some []

/-- `convert_flexiblecommand_line` with its possible failure points made
explicit: the only operation in the function that could signal failure is the
`.group(1)` call on `re.match(r'(\s*)', line)` in the known-command branch
(which would raise `AttributeError` were the match to fail). -/
def convertE (line : List Char) : Except String (List Char) :=
  match searchCall line with
  | none => Except.ok line
  | some (_, name, args, _) =>
    match List.lookup (String.mk name) COMMAND_MAPPINGS with
    | none => Except.ok (pyReplace (callText name args) (unknownNew name) line)
    | some m =>
      match matchStar isPySpace line with
      | none => Except.error "AttributeError: NoneType object has no attribute group"
      | some indent => Except.ok (indent ++ knownOut m.type.data name)

/-- Python `f.readlines()` on the file contents: split after every `'\n'`,
keeping the terminators (text mode has already normalised line endings). -/
def pyReadlines : List Char → List (List Char)
  | [] => []
  | c :: cs =>
    if c = '\n' then [c] :: pyReadlines cs
    else
      match pyReadlines cs with
      | [] => [[c]]
      | l :: ls => (c :: l) :: ls

/-- The conversion loop of `main`: convert every line, counting the lines
whose content changed. -/
def convertAll : List (List Char) → List (List Char) × Nat
  | [] => ([], 0)
  | l :: ls =>
    let nl := convertLine l
    let rest := convertAll ls
    (nl :: rest.1, (if nl ≠ l then 1 else 0) + rest.2)

/-- The bytes `main` writes to `<input>.converted` for given input-file
contents: `f.writelines` of the converted lines. -/
def driverOutput (contents : List Char) : List Char :=
  ((convertAll (pyReadlines contents)).1).flatten

/-- The usage message of `main`. -/
def USAGE : String := "Usage: python3 convert_flexiblecommand.py <input_file>"

/-- The operating-system behaviour `main` is run against: what opening and
reading the input file yields, and whether writing the output file succeeds.
An `Except.error e` models a raised exception whose `str()` is `e`. -/
structure OSModel where
  readResult : Except String String
  writeResult : Except String Unit

/-- Observable outcome of one run of `main`: lines printed to standard
output, the exit status, the files read, and the (file name, contents) pairs
written. -/
structure RunResult where
  stdout : List String
  exitCode : Nat
  reads : List String
  writes : List (String × String)
deriving DecidableEq

/-- The script's `main`: argument check, read, convert, write, report; any
exception from the file operations is caught at the top level, printed as
`Error: <description>` and turns into exit status 1. -/
def pyMain (argv : List String) (os : OSModel) : RunResult :=
  if argv.length ≠ 2 then
    ⟨[USAGE], 1, [], []⟩
  else
    let filename := argv.getD 1 ""
    match os.readResult with
    | Except.error e => ⟨["Error: " ++ e], 1, [filename], []⟩
    | Except.ok contents =>
      let res := convertAll (pyReadlines contents.data)
      let outName := filename ++ ".converted"
      match os.writeResult with
      | Except.error e => ⟨["Error: " ++ e], 1, [filename], []⟩
      | Except.ok _ =>
        ⟨["Converted " ++ toString res.2 ++ " FlexibleCommand calls",
          "Output written to: " ++ outName],
         0, [filename], [(outName, String.mk res.1.flatten)]⟩

/-- `pat` occurs in `s` starting at index `i`. -/
def OccursAt (pat s : List Char) (i : Nat) : Prop := pat <+: s.drop i

/-- Executable occurrence test: does `pat` occur anywhere in `s`? -/
def occursIn (pat s : List Char) : Bool :=
  (List.range (s.length + 1)).any (fun i => pat.isPrefixOf (s.drop i))

/-- Number of start positions at which `pat` occurs in `s`. -/
def countOcc (pat s : List Char) : Nat :=
  ((List.range (s.length + 1)).filter (fun i => pat.isPrefixOf (s.drop i))).length

/-- `pat` occurs nowhere in `s`. -/
def NoOcc (pat s : List Char) : Prop := ∀ i, ¬ OccursAt pat s i

/-- The two-character pattern `::`, used to locate the matched factory call:
it occurs in the pattern literal but never in an output line's replacement
text. -/
def DC : List Char := [':', ':']

/-! ### Occurrence toolkit -/

theorem prefix_append_cases {p u b : List Char} (h : p <+: u ++ b) :
    p <+: u ∨ ∃ y, y ≠ [] ∧ p = u ++ y ∧ y <+: b := by
  obtain ⟨t, ht⟩ := h
  rcases List.append_eq_append_iff.mp ht.symm with ⟨a', h1, h2⟩ | ⟨c', h1, h2⟩
  · cases a' with
    | nil => left; rw [h1, List.append_nil]
    | cons x xs => right; exact ⟨x :: xs, by simp, h1, ⟨t, h2.symm⟩⟩
  · left; exact ⟨c', h1.symm⟩

theorem occursAt_lt_length {p s : List Char} {i : Nat} (hp : p ≠ []) (h : OccursAt p s i) :
    i < s.length := by
  by_contra hge
  push_neg at hge
  have hnil : s.drop i = [] := List.drop_eq_nil_of_le hge
  rw [OccursAt, hnil] at h
  exact hp (List.prefix_nil.mp h)

theorem occursAt_append_right {p a b : List Char} {k : Nat} (h : OccursAt p b k) :
    OccursAt p (a ++ b) (a.length + k) := by
  rw [OccursAt, List.drop_append]; exact h

theorem occursAt_append_left {p a b : List Char} {i : Nat} (h : OccursAt p a i)
    (hi : i ≤ a.length) : OccursAt p (a ++ b) i := by
  rw [OccursAt, List.drop_append_of_le_length hi]
  exact h.trans (List.prefix_append _ _)

theorem occursAt_append_elim {p a b : List Char} {i : Nat} (h : OccursAt p (a ++ b) i) :
    OccursAt p a i ∨
    (a.length ≤ i ∧ OccursAt p b (i - a.length)) ∨
    (i < a.length ∧ ∃ y, y ≠ [] ∧ p = a.drop i ++ y ∧ y <+: b) := by
  by_cases hi : a.length ≤ i
  · right; left
    refine ⟨hi, ?_⟩
    rw [OccursAt, List.drop_append_eq_append_drop, List.drop_eq_nil_of_le hi,
      List.nil_append] at h
    exact h
  · push_neg at hi
    rw [OccursAt, List.drop_append_of_le_length (Nat.le_of_lt hi)] at h
    rcases prefix_append_cases h with h1 | ⟨y, hy, hpy, hyb⟩
    · left; exact h1
    · right; right; exact ⟨hi, y, hy, hpy, hyb⟩

theorem infix_iff_exists_occursAt {p s : List Char} : p <:+: s ↔ ∃ i, OccursAt p s i := by
  constructor
  · rintro ⟨u, v, rfl⟩
    refine ⟨u.length, ?_⟩
    rw [OccursAt, List.append_assoc, List.drop_left]
    exact List.prefix_append _ _
  · rintro ⟨i, t, ht⟩
    exact ⟨s.take i, t, by rw [List.append_assoc, ht, List.take_append_drop]⟩

theorem noOcc_of_head_not_mem {c : Char} {pt s : List Char} (h : c ∉ s) :
    NoOcc (c :: pt) s := by
  intro i hi
  obtain ⟨t, ht⟩ := hi
  exact h (List.drop_subset i s (ht ▸ List.mem_cons_self c (pt ++ t)))

theorem noOcc_append_of_head_not_mem {c : Char} {pt a b : List Char}
    (ha : c ∉ a) (hb : NoOcc (c :: pt) b) : NoOcc (c :: pt) (a ++ b) := by
  intro i hi
  rcases occursAt_append_elim hi with h1 | ⟨_, h2⟩ | ⟨hlt, y, _, heq, -⟩
  · exact noOcc_of_head_not_mem ha i h1
  · exact hb _ h2
  · cases hd : a.drop i with
    | nil =>
      have := congrArg List.length hd
      rw [List.length_drop] at this
      simp only [List.length_nil] at this
      omega
    | cons d ds =>
      rw [hd, List.cons_append] at heq
      have hcd : c = d := (List.cons.injEq _ _ _ _ ▸ heq).1
      exact ha (hcd ▸ List.drop_subset i a (hd ▸ List.mem_cons_self d ds))

theorem noOcc_of_occursIn_false {p s : List Char} (hp : p ≠ []) (h : occursIn p s = false) :
    NoOcc p s := by
  intro i hi
  have hib : i < s.length + 1 := Nat.lt_succ_of_lt (occursAt_lt_length hp hi)
  have htrue : occursIn p s = true :=
    List.any_eq_true.mpr ⟨i, List.mem_range.mpr hib, List.isPrefixOf_iff_prefix.mpr hi⟩
  rw [h] at htrue
  cases htrue

theorem two_le_length_of_nodup_mem {l : List Nat} {i j : Nat} (hn : l.Nodup)
    (hi : i ∈ l) (hj : j ∈ l) (hij : i ≠ j) : 2 ≤ l.length := by
  match l, hi with
  | [x], hi =>
    rw [List.mem_singleton] at hi hj
    exact absurd (hi.trans hj.symm) hij
  | x :: y :: t, _ => simp
  | [], hi => cases hi

theorem occursAt_eq_of_countOcc_le_one {p s : List Char} {i j : Nat} (hp : p ≠ [])
    (hc : countOcc p s ≤ 1) (hi : OccursAt p s i) (hj : OccursAt p s j) : i = j := by
  by_contra hij
  have hmem : ∀ k, OccursAt p s k →
      k ∈ (List.range (s.length + 1)).filter (fun k => p.isPrefixOf (s.drop k)) := by
    intro k hk
    refine List.mem_filter.mpr ⟨List.mem_range.mpr ?_, List.isPrefixOf_iff_prefix.mpr hk⟩
    exact Nat.lt_succ_of_lt (occursAt_lt_length hp hk)
  have hnd : ((List.range (s.length + 1)).filter (fun k => p.isPrefixOf (s.drop k))).Nodup :=
    (List.nodup_range _).filter _
  have h2 := two_le_length_of_nodup_mem hnd (hmem i hi) (hmem j hj) hij
  rw [countOcc] at hc
  omega

theorem prefix_drop_mono {p z : List Char} (h : p <+: z) (m : Nat) :
    p.drop m <+: z.drop m := by
  obtain ⟨t, rfl⟩ := h
  rw [List.drop_append_eq_append_drop]
  exact List.prefix_append _ _

theorem prefix_take_mono {p z : List Char} (h : p <+: z) (m : Nat) :
    p.take m <+: z.take m := by
  obtain ⟨t, rfl⟩ := h
  rw [List.take_append_eq_append_take]
  exact List.prefix_append _ _

/-! ### takeWhile / dropWhile -/

theorem takeWhile_append_all {p : Char → Bool} {xs : List Char} {y : Char} {ys : List Char}
    (hxs : ∀ c ∈ xs, p c = true) (hy : p y = false) :
    (xs ++ y :: ys).takeWhile p = xs := by
  induction xs with
  | nil => simp [List.takeWhile_cons, hy]
  | cons x xs ih =>
    have hx := hxs x (List.mem_cons_self x xs)
    simp only [List.cons_append, List.takeWhile_cons, hx, if_true]
    rw [ih (fun c hc => hxs c (List.mem_cons_of_mem x hc))]

theorem dropWhile_append_all {p : Char → Bool} {xs : List Char} {y : Char} {ys : List Char}
    (hxs : ∀ c ∈ xs, p c = true) (hy : p y = false) :
    (xs ++ y :: ys).dropWhile p = y :: ys := by
  induction xs with
  | nil => simp [List.dropWhile_cons, hy]
  | cons x xs ih =>
    have hx := hxs x (List.mem_cons_self x xs)
    simp only [List.cons_append, List.dropWhile_cons, hx, if_true]
    exact ih (fun c hc => hxs c (List.mem_cons_of_mem x hc))

/-! ### pyReplace -/

theorem replaceAllF_fuel_eq {old new : List Char} (hold : old ≠ []) :
    ∀ f₁ f₂ s, s.length ≤ f₁ → s.length ≤ f₂ →
      replaceAllF old new f₁ s = replaceAllF old new f₂ s := by
  intro f₁
  induction f₁ with
  | zero =>
    intro f₂ s h1 _
    have : s = [] := List.length_eq_zero.mp (Nat.le_zero.mp h1)
    subst this
    cases f₂ <;> rfl
  | succ f₁ ih =>
    intro f₂ s h1 h2
    cases s with
    | nil => cases f₂ <;> rfl
    | cons c cs =>
      cases f₂ with
      | zero => simp at h2
      | succ f₂ =>
        have hlen : old.length ≥ 1 := Nat.one_le_iff_ne_zero.mpr
          (fun h0 => hold (List.length_eq_zero.mp h0))
        simp only [replaceAllF]
        by_cases hpre : old.isPrefixOf (c :: cs)
        · rw [if_pos hpre, if_pos hpre]
          congr 1
          apply ih
          · rw [List.length_drop, List.length_cons]
            simp only [List.length_cons] at h1
            omega
          · rw [List.length_drop, List.length_cons]
            simp only [List.length_cons] at h2
            omega
        · rw [if_neg hpre, if_neg hpre]
          congr 1
          apply ih
          · simp only [List.length_cons] at h1; omega
          · simp only [List.length_cons] at h2; omega

theorem pyReplace_pos {old new s : List Char} (hold : old ≠ []) (h : old <+: s) :
    pyReplace old new s = new ++ pyReplace old new (s.drop old.length) := by
  cases s with
  | nil => exact absurd (List.prefix_nil.mp h) hold
  | cons c cs =>
    have hlen : old.length ≥ 1 := Nat.one_le_iff_ne_zero.mpr
      (fun h0 => hold (List.length_eq_zero.mp h0))
    rw [pyReplace, pyReplace]
    simp only [List.length_cons, replaceAllF, List.isPrefixOf_iff_prefix.mpr h, if_true]
    congr 1
    apply replaceAllF_fuel_eq hold
    · rw [List.length_drop, List.length_cons]; omega
    · exact Nat.le_refl _

theorem pyReplace_neg {old new : List Char} {c : Char} {cs : List Char}
    (h : ¬ old <+: c :: cs) :
    pyReplace old new (c :: cs) = c :: pyReplace old new cs := by
  have hb : old.isPrefixOf (c :: cs) = false := by
    rw [Bool.eq_false_iff]
    intro hc
    exact h (List.isPrefixOf_iff_prefix.mp hc)
  rw [pyReplace, pyReplace]
  simp only [List.length_cons, replaceAllF, hb]
  cases cs <;> simp [replaceAllF]

theorem pyReplace_of_noOcc {old new s : List Char} (h : NoOcc old s) :
    pyReplace old new s = s := by
  induction s with
  | nil => rfl
  | cons c cs ih =>
    have h0 : ¬ old <+: c :: cs := by
      have := h 0
      rwa [OccursAt, List.drop_zero] at this
    rw [pyReplace_neg h0]
    congr 1
    apply ih
    intro i hi
    exact h (i + 1) (by rwa [OccursAt, List.drop_succ_cons])

theorem pyReplace_unique {old new pre suf : List Char} (hold : old ≠ [])
    (huniq : ∀ j, OccursAt old (pre ++ old ++ suf) j → j = pre.length) :
    pyReplace old new (pre ++ old ++ suf) = pre ++ new ++ suf := by
  induction pre with
  | nil =>
    simp only [List.nil_append]
    rw [pyReplace_pos hold (List.prefix_append _ _), List.drop_left]
    have hno : NoOcc old suf := by
      intro k hk
      have h1 : OccursAt old (old ++ suf) (old.length + k) := occursAt_append_right hk
      have h2 := huniq (old.length + k) (by simpa using h1)
      simp only [List.length_nil] at h2
      have h3 : old.length = 0 := by omega
      exact hold (List.length_eq_zero.mp h3)
    rw [pyReplace_of_noOcc hno]
  | cons c p ih =>
    have hshape : (c :: p) ++ old ++ suf = c :: (p ++ old ++ suf) := by simp
    rw [hshape]
    have hne : ¬ old <+: c :: (p ++ old ++ suf) := by
      intro hp0
      have h0 : OccursAt old ((c :: p) ++ old ++ suf) 0 := by
        rw [OccursAt, List.drop_zero, hshape]; exact hp0
      have := huniq 0 h0
      simp at this
    rw [pyReplace_neg hne]
    have ih' := ih (fun j hj => by
      have : OccursAt old ((c :: p) ++ old ++ suf) (j + 1) := by
        rw [OccursAt, hshape, List.drop_succ_cons]; exact hj
      have h1 := huniq (j + 1) this
      simp only [List.length_cons] at h1
      omega)
    rw [ih']
    simp

/-! ### Facts about the concrete pattern pieces -/

theorem lit_ne_nil : LIT ≠ [] := by decide

theorem lit_head : ∃ lt, LIT = 'e' :: lt := ⟨LIT.drop 1, by decide⟩

theorem close_ne_nil : CLOSE ≠ [] := by decide

theorem not_pySpace_e : isPySpace 'e' = false := by decide

theorem not_wordChar_lparen : isWordChar '(' = false := by decide

theorem not_mem_of_all_pySpace {c : Char} {l : List Char}
    (hl : ∀ d ∈ l, isPySpace d = true) (hc : isPySpace c = false) : c ∉ l := by
  intro hmem
  rw [hl c hmem] at hc
  cases hc

/-! ### findArgs -/

theorem findArgs_decomp {u a r : List Char} (h : findArgs u = some (a, r)) :
    u = a ++ CLOSE ++ r ∧ ∀ c ∈ a, c ≠ '\n' := by
  induction u generalizing a r with
  | nil => simp [findArgs] at h
  | cons c cs ih =>
    rw [findArgs] at h
    by_cases h1 : CLOSE.isPrefixOf (c :: cs)
    · rw [if_pos h1] at h
      simp only [Option.some.injEq, Prod.mk.injEq] at h
      obtain ⟨rfl, rfl⟩ := h
      have hpre : CLOSE <+: c :: cs := List.isPrefixOf_iff_prefix.mp h1
      have heq : CLOSE ++ (c :: cs).drop CLOSE.length = c :: cs :=
        List.prefix_iff_eq_append.mp hpre
      have h3 : (c :: cs).drop CLOSE.length = cs.drop 2 := rfl
      constructor
      · rw [List.nil_append]
        exact heq.symm.trans (congrArg (CLOSE ++ ·) h3)
      · intro x hx; cases hx
    · rw [if_neg h1] at h
      by_cases h2 : c = '\n'
      · rw [if_pos h2] at h; cases h
      · rw [if_neg h2] at h
        cases hf : findArgs cs with
        | none => rw [hf] at h; cases h
        | some p =>
          rw [hf] at h
          obtain ⟨a', r'⟩ := p
          simp only [Option.map_some', Option.some.injEq, Prod.mk.injEq] at h
          obtain ⟨rfl, rfl⟩ := h
          obtain ⟨hd, hn⟩ := ih hf
          constructor
          · simp only [List.cons_append, List.cons.injEq, true_and]
            simpa using hd
          · intro x hx
            rcases List.mem_cons.mp hx with rfl | hx'
            · exact h2
            · exact hn x hx'

/-! ### matchCall -/

theorem matchCall_lit {s : List Char} {x : List Char × List Char × List Char}
    (h : matchCall s = some x) : LIT <+: s := by
  rw [matchCall] at h
  by_cases hL : LIT.isPrefixOf s
  · exact List.isPrefixOf_iff_prefix.mp hL
  · rw [if_neg hL] at h; cases h

theorem matchCall_decomp {s n a r : List Char} (h : matchCall s = some (n, a, r)) :
    s = LIT ++ n ++ ['('] ++ a ++ CLOSE ++ r ∧ n ≠ [] ∧
      (∀ c ∈ n, isWordChar c = true) ∧ ∀ c ∈ a, c ≠ '\n' := by
  have hL : LIT <+: s := matchCall_lit h
  have hs : LIT ++ s.drop LIT.length = s := List.prefix_iff_eq_append.mp hL
  have hsplit : (s.drop LIT.length).takeWhile isWordChar ++
      (s.drop LIT.length).dropWhile isWordChar = s.drop LIT.length :=
    List.takeWhile_append_dropWhile _ _
  rw [matchCall, if_pos (List.isPrefixOf_iff_prefix.mpr hL)] at h
  split at h
  · cases h
  · rename_i n₀ n' t3 htk hdw
    split at h
    · rename_i args rest hf
      simp only [Option.some.injEq, Prod.mk.injEq] at h
      obtain ⟨rfl, rfl, rfl⟩ := h
      obtain ⟨ht3, hnl⟩ := findArgs_decomp hf
      refine ⟨?_, by simp, ?_, hnl⟩
      · rw [← hs, ← hsplit, htk, hdw, ht3]
        simp [List.append_assoc]
      · intro c hc
        exact List.mem_takeWhile_imp (htk ▸ hc)
    · cases h
  · cases h

/-! ### searchCall -/

theorem searchCall_decomp {s pre n a r : List Char}
    (h : searchCall s = some (pre, n, a, r)) :
    s = pre ++ LIT ++ n ++ ['('] ++ a ++ CLOSE ++ r ∧ n ≠ [] ∧
      (∀ c ∈ n, isWordChar c = true) ∧ ∀ c ∈ a, c ≠ '\n' := by
  induction s generalizing pre with
  | nil => cases h
  | cons c cs ih =>
    rw [searchCall] at h
    split at h
    · rename_i n' a' r' hm
      simp only [Option.some.injEq, Prod.mk.injEq] at h
      obtain ⟨rfl, rfl, rfl, rfl⟩ := h
      have hd := matchCall_decomp hm
      simpa using hd
    · split at h
      · rename_i p' n' a' r' hsc
        simp only [Option.some.injEq, Prod.mk.injEq] at h
        obtain ⟨rfl, rfl, rfl, rfl⟩ := h
        obtain ⟨hd, h2, h3, h4⟩ := ih hsc
        refine ⟨?_, h2, h3, h4⟩
        simp only [List.cons_append, List.cons.injEq, true_and]
        simpa using hd
      · cases h

theorem searchCall_eq_none_of_noOcc {s : List Char} (h : NoOcc LIT s) :
    searchCall s = none := by
  induction s with
  | nil => rfl
  | cons c cs ih =>
    have h0 : matchCall (c :: cs) = none := by
      cases hm : matchCall (c :: cs) with
      | none => rfl
      | some x =>
        exfalso
        apply h 0
        rw [OccursAt, List.drop_zero]
        exact matchCall_lit hm
    have h1 : searchCall cs = none := by
      apply ih
      intro i hi
      exact h (i + 1) (by rwa [OccursAt, List.drop_succ_cons])
    rw [searchCall, h0, h1]

theorem searchCall_occursAt {s pre n a r : List Char}
    (h : searchCall s = some (pre, n, a, r)) : OccursAt LIT s pre.length := by
  obtain ⟨hd, -, -, -⟩ := searchCall_decomp h
  rw [OccursAt, hd]
  have : pre ++ LIT ++ n ++ ['('] ++ a ++ CLOSE ++ r =
      pre ++ (LIT ++ (n ++ (['('] ++ (a ++ (CLOSE ++ r))))) := by
    simp [List.append_assoc]
  rw [this, List.drop_left]
  exact List.prefix_append _ _

theorem searchCall_ws {pre s : List Char} (h : ∀ c ∈ pre, isPySpace c = true) :
    searchCall (pre ++ s) = (searchCall s).map (fun q => (pre ++ q.1, q.2)) := by
  induction pre with
  | nil =>
    simp only [List.nil_append]
    cases searchCall s with
    | none => rfl
    | some q => rfl
  | cons c p ih =>
    have hc : isPySpace c = true := h c (List.mem_cons_self c p)
    have hce : c ≠ 'e' := by
      intro hwc
      rw [hwc, not_pySpace_e] at hc
      cases hc
    have hmc : matchCall (c :: (p ++ s)) = none := by
      rw [matchCall, if_neg]
      intro hb
      obtain ⟨lt, hlt⟩ := lit_head
      have hp := List.isPrefixOf_iff_prefix.mp hb
      rw [hlt, List.cons_prefix_cons] at hp
      exact hce hp.1.symm
    have ihp := ih (fun d hd => h d (List.mem_cons_of_mem c hd))
    rw [List.cons_append, searchCall, hmc, ihp]
    cases searchCall s with
    | none => rfl
    | some q => simp

/-! ### The exact-form match -/

theorem findArgs_shape {a r : List Char} (hnl : '\n' ∉ a) (hca : NoOcc CLOSE a) :
    findArgs (a ++ CLOSE ++ r) = some (a, r) := by
  induction a with
  | nil =>
    have : ([] : List Char) ++ CLOSE ++ r = ')' :: (')' :: ';' :: r) := by
      simp [CLOSE]
    rw [this, findArgs, if_pos]
    · rfl
    · apply List.isPrefixOf_iff_prefix.mpr
      exact ⟨r, by simp [CLOSE]⟩
  | cons c a' ih =>
    have hshape : (c :: a') ++ CLOSE ++ r = c :: (a' ++ CLOSE ++ r) := by simp
    rw [hshape, findArgs]
    have hnotclose : ¬ CLOSE.isPrefixOf (c :: (a' ++ CLOSE ++ r)) = true := by
      intro hb
      have hp := List.isPrefixOf_iff_prefix.mp hb
      have hcl : CLOSE = ')' :: ')' :: ';' :: [] := rfl
      rw [hcl, List.cons_prefix_cons] at hp
      obtain ⟨hc1, hp⟩ := hp
      cases a' with
      | nil => simp at hp
      | cons x a'' =>
        simp only [List.cons_append] at hp
        rw [List.cons_prefix_cons] at hp
        obtain ⟨hc2, hp⟩ := hp
        cases a'' with
        | nil => simp at hp
        | cons y a₃ =>
          simp only [List.cons_append] at hp
          rw [List.cons_prefix_cons] at hp
          apply hca 0
          rw [OccursAt, List.drop_zero, ← hc1, ← hc2, ← hp.1]
          exact ⟨a₃, by simp [CLOSE]⟩
    rw [if_neg hnotclose, if_neg (by intro hc; exact hnl (hc ▸ List.mem_cons_self c a'))]
    have ih' := ih (fun hx => hnl (List.mem_cons_of_mem c hx))
      (fun i hi => hca (i + 1) (by rwa [OccursAt, List.drop_succ_cons]))
    rw [ih']
    rfl

theorem matchCall_shape {n a r : List Char} (hn : n ≠ [])
    (hw : ∀ c ∈ n, isWordChar c = true) (hnl : '\n' ∉ a) (hca : NoOcc CLOSE a) :
    matchCall (callText n a ++ r) = some (n, a, r) := by
  have hshape : callText n a ++ r = LIT ++ (n ++ ('(' :: (a ++ (CLOSE ++ r)))) := by
    simp [callText, List.append_assoc]
  rw [hshape, matchCall, if_pos (List.isPrefixOf_iff_prefix.mpr (List.prefix_append _ _)),
    List.drop_left]
  have htk : (n ++ '(' :: (a ++ (CLOSE ++ r))).takeWhile isWordChar = n :=
    takeWhile_append_all hw not_wordChar_lparen
  have hdw : (n ++ '(' :: (a ++ (CLOSE ++ r))).dropWhile isWordChar =
      '(' :: (a ++ (CLOSE ++ r)) :=
    dropWhile_append_all hw not_wordChar_lparen
  rw [htk, hdw]
  cases n with
  | nil => exact absurd rfl hn
  | cons n₀ n' =>
    have hf : findArgs (a ++ (CLOSE ++ r)) = some (a, r) := by
      have h0 := findArgs_shape (r := r) hnl hca
      rwa [List.append_assoc] at h0
    show (match findArgs (a ++ (CLOSE ++ r)) with
      | some (args, rest) => some (n₀ :: n', args, rest)
      | none => none) = some (n₀ :: n', a, r)
    rw [hf]

theorem searchCall_callText {n a r : List Char} (hn : n ≠ [])
    (hw : ∀ c ∈ n, isWordChar c = true) (hnl : '\n' ∉ a) (hca : NoOcc CLOSE a) :
    searchCall (callText n a ++ r) = some ([], n, a, r) := by
  have hm := matchCall_shape (r := r) hn hw hnl hca
  obtain ⟨lt, hlt⟩ := lit_head
  have hshape : callText n a ++ r = 'e' :: (lt ++ (n ++ ['('] ++ a ++ CLOSE ++ r)) := by
    rw [callText, hlt]
    simp [List.append_assoc]
  rw [hshape] at hm ⊢
  rw [searchCall, hm]

/-! ### convertLine branch equations -/

theorem convertLine_of_searchCall_none {line : List Char} (h : searchCall line = none) :
    convertLine line = line := by
  simp only [convertLine, h]

theorem convertLine_eq_self_of_noOcc {s : List Char} (h : NoOcc LIT s) :
    convertLine s = s :=
  convertLine_of_searchCall_none (searchCall_eq_none_of_noOcc h)

theorem convertLine_unknown {line pre n a r : List Char}
    (h : searchCall line = some (pre, n, a, r))
    (hl : List.lookup (String.mk n) COMMAND_MAPPINGS = none) :
    convertLine line = pyReplace (callText n a) (unknownNew n) line := by
  simp only [convertLine, h, hl]

theorem convertLine_known {line pre n a r : List Char} {m : CommandMapping}
    (h : searchCall line = some (pre, n, a, r))
    (hl : List.lookup (String.mk n) COMMAND_MAPPINGS = some m) :
    convertLine line = line.takeWhile isPySpace ++ knownOut m.type.data n := by
  simp only [convertLine, h, hl]

/-! ### Table facts -/

theorem mem_of_lookup_eq_some {a : String} {b : CommandMapping}
    {l : List (String × CommandMapping)} (h : List.lookup a l = some b) : (a, b) ∈ l := by
  induction l with
  | nil => cases h
  | cons p l ih =>
    obtain ⟨k, v⟩ := p
    simp only [List.lookup] at h
    cases hak : a == k with
    | true =>
      rw [hak] at h
      simp only [Option.some.injEq] at h
      subst h
      have : a = k := by
        have := eq_of_beq hak
        exact this
      subst this
      exact List.mem_cons_self _ _
    | false =>
      rw [hak] at h
      exact List.mem_cons_of_mem _ (ih h)

set_option maxHeartbeats 1000000 in
theorem table_keys_word :
    ∀ p ∈ COMMAND_MAPPINGS, p.1.data ≠ [] ∧ ∀ c ∈ p.1.data, isWordChar c = true := by
  decide

set_option maxHeartbeats 4000000 in
theorem table_knownOut_litFree :
    ∀ p ∈ COMMAND_MAPPINGS, occursIn LIT (knownOut p.2.type.data p.1.data) = false := by
  decide

/-! ### The replacement text contains no further match -/

theorem pyUpperChar_word_ne_colon {c : Char} (h : isWordChar c = true) :
    pyUpperChar c ≠ ':' := by
  intro heq
  rw [pyUpperChar, Char.toUpper] at heq
  by_cases hc : Char.toNat c ≥ 97 ∧ Char.toNat c ≤ 122
  · rw [if_pos hc] at heq
    obtain ⟨h1, h2⟩ := hc
    set t := Char.toNat c - 32 with hts
    have hb1 : 65 ≤ t := by omega
    have hb2 : t ≤ 90 := by omega
    interval_cases t <;> exact absurd heq (by decide)
  · rw [if_neg hc] at heq
    subst heq
    exact absurd h (by decide)

theorem colon_not_mem_upper {n : List Char} (hw : ∀ c ∈ n, isWordChar c = true) :
    ':' ∉ n.map pyUpperChar := by
  intro hmem
  obtain ⟨c, hc, hceq⟩ := List.mem_map.mp hmem
  exact pyUpperChar_word_ne_colon (hw c hc) hceq

theorem noOcc_DC_unknownNew {n : List Char} (hw : ∀ c ∈ n, isWordChar c = true) :
    NoOcc DC (unknownNew n) := by
  have heq : unknownNew n = KA ++ (n.map pyUpperChar ++ UB) := by
    rw [unknownNew, List.append_assoc]
  have hdc : DC = ':' :: [':'] := rfl
  rw [heq, hdc]
  exact noOcc_append_of_head_not_mem (by decide)
    (noOcc_append_of_head_not_mem (colon_not_mem_upper hw)
      (noOcc_of_occursIn_false (by decide) (by decide)))

theorem s_not_mem_LIT : 's' ∉ LIT := by decide

theorem dc_prefix_lit_drop34 : DC <+: LIT.drop 34 := by decide

theorem lit_take41 : LIT = LIT.take 41 ++ ['e'] := by decide

theorem lit_pair_fact :
    ∀ d, 1 ≤ d → d < 41 → ((LIT.drop d).take 2).isPrefixOf ['e', 'm'] = false := by
  decide

theorem unknownNew_take2 (n r : List Char) : (unknownNew n ++ r).take 2 = ['e', 'm'] := by
  have h1 : unknownNew n ++ r = KA ++ (n.map pyUpperChar ++ (UB ++ r)) := by
    simp [unknownNew, List.append_assoc]
  rw [h1, List.take_append_eq_append_take]
  have h2 : KA.take 2 = ['e', 'm'] := by decide
  have h3 : 2 - KA.length = 0 := by decide
  rw [h2, h3, List.take_zero, List.append_nil]

theorem s_suffix_unknownNew (n : List Char) : ['s'] <:+ unknownNew n := by
  rw [unknownNew]
  have h1 : ['s'] <:+ UB := by decide
  exact h1.trans (List.suffix_append _ _)

/-- The unknown-command branch's result contains no further occurrence of the
pattern literal: `LIT` does not occur in `pre ++ unknownNew n ++ r` when the
only occurrence of `LIT` in the original line `pre ++ callText n a ++ r` is
the matched one at position `pre.length`. -/
theorem noOcc_LIT_unknown_out {pre n a r : List Char}
    (hw : ∀ c ∈ n, isWordChar c = true)
    (huniq : ∀ j, OccursAt LIT (pre ++ callText n a ++ r) j → j = pre.length) :
    NoOcc LIT (pre ++ unknownNew n ++ r) := by
  intro i hi
  obtain ⟨lt, hlt⟩ := lit_head
  have h42 : LIT.length = 42 := by decide
  have hcallshape : callText n a ++ r = 'e' :: (lt ++ (n ++ (['('] ++ (a ++ (CLOSE ++ r))))) := by
    rw [callText, hlt]
    simp [List.append_assoc]
  rw [show pre ++ unknownNew n ++ r = pre ++ (unknownNew n ++ r) from
    List.append_assoc _ _ _] at hi
  rcases occursAt_append_elim hi with h1 | ⟨hge, h2⟩ | ⟨hlt2, y, hyne, hpy, hyr⟩
  · -- an occurrence inside `pre` would be a second occurrence in the line
    have hib : i < pre.length := occursAt_lt_length lit_ne_nil h1
    have hocc : OccursAt LIT (pre ++ (callText n a ++ r)) i :=
      occursAt_append_left h1 (Nat.le_of_lt hib)
    have := huniq i (by rwa [← List.append_assoc] at hocc)
    omega
  · rcases occursAt_append_elim h2 with h2a | ⟨hge2, h2b⟩ | ⟨hlt3, z, hzne, hpz, hzr⟩
    · -- fully inside the replacement text: `::` would occur there
      have hdc : DC <+: (unknownNew n).drop (i - pre.length + 34) := by
        have hm := prefix_drop_mono h2a 34
        rw [List.drop_drop] at hm
        exact dc_prefix_lit_drop34.trans hm
      exact noOcc_DC_unknownNew hw _ hdc
    · -- fully inside `r`: a second occurrence in the line
      have hocc : OccursAt LIT ((pre ++ callText n a) ++ r)
          ((pre ++ callText n a).length + (i - pre.length - (unknownNew n).length)) :=
        occursAt_append_right h2b
      have heq := huniq _ hocc
      have hcl : 0 < (callText n a).length := by
        rw [callText]
        simp only [List.length_append]
        omega
      rw [List.length_append] at heq
      omega
    · -- spanning the replacement text and `r`: LIT would contain `'s'`
      have hne : (unknownNew n).drop (i - pre.length) ≠ [] := by
        intro h0
        have := congrArg List.length h0
        rw [List.length_drop] at this
        simp only [List.length_nil] at this
        omega
      have hlen1 : 1 ≤ ((unknownNew n).drop (i - pre.length)).length := by
        rw [List.length_drop]; omega
      have hsuf : ['s'] <:+ (unknownNew n).drop (i - pre.length) :=
        List.suffix_of_suffix_length_le (s_suffix_unknownNew n)
          (List.drop_suffix _ _) (by simpa using hlen1)
      have hs_mem : 's' ∈ (unknownNew n).drop (i - pre.length) := by
        obtain ⟨w, hw2⟩ := hsuf
        rw [← hw2]
        simp
      have : 's' ∈ LIT := by
        rw [hpz]
        exact List.mem_append_left _ hs_mem
      exact absurd this s_not_mem_LIT
  · -- spanning `pre` and the replacement text
    have hdlen : (pre.drop i).length = pre.length - i := List.length_drop _ _
    have hy_eq : y = LIT.drop (pre.length - i) := by
      have hdr : LIT.drop ((pre.drop i).length) = y := by
        rw [hpy, List.drop_left]
      rw [hdlen] at hdr
      exact hdr.symm
    have hd1 : 1 ≤ pre.length - i := by omega
    have hd41 : pre.length - i ≤ 41 := by
      have hl := congrArg List.length hpy
      rw [List.length_append, hdlen, h42] at hl
      have hy1 : 1 ≤ y.length :=
        Nat.one_le_iff_ne_zero.mpr (fun h0 => hyne (List.length_eq_zero.mp h0))
      omega
    by_cases hd41' : pre.length - i = 41
    · -- boundary case: the line would contain a second occurrence at `i`
      have hpre_drop : pre.drop i = LIT.take 41 := by
        have htk : LIT.take ((pre.drop i).length) = pre.drop i := by
          rw [hpy, List.take_left]
        rw [hdlen, hd41'] at htk
        exact htk.symm
      have hocc : OccursAt LIT (pre ++ callText n a ++ r) i := by
        rw [OccursAt, List.append_assoc, List.drop_append_of_le_length (Nat.le_of_lt hlt2),
          hpre_drop, hcallshape, ← List.singleton_append]
        conv_lhs => rw [lit_take41]
        rw [List.prefix_append_right_inj]
        exact List.prefix_append _ _
      have := huniq i hocc
      omega
    · -- otherwise LIT would have to contain `em` after position d, and it does not
      have hy2 : y.take 2 <+: (unknownNew n ++ r).take 2 := prefix_take_mono hyr 2
      rw [unknownNew_take2, hy_eq] at hy2
      have hpair : ((LIT.drop (pre.length - i)).take 2).isPrefixOf ['e', 'm'] = true :=
        List.isPrefixOf_iff_prefix.mpr hy2
      have hfalse := lit_pair_fact (pre.length - i) hd1 (by omega)
      rw [hfalse] at hpair
      cases hpair

/-- No occurrence of a pattern with non-whitespace head can start inside an
all-whitespace region. -/
theorem occursAt_space_bound {pre z p : List Char} {c0 : Char} {pt : List Char} {j : Nat}
    (hind : ∀ c ∈ pre, isPySpace c = true) (hp : p = c0 :: pt) (hc0 : isPySpace c0 = false)
    (h : OccursAt p (pre ++ z) j) : pre.length ≤ j := by
  have hc0m : c0 ∉ pre := not_mem_of_all_pySpace hind hc0
  rcases occursAt_append_elim h with h1 | ⟨hge, -⟩ | ⟨hlt, y, -, hpy, -⟩
  · exfalso
    exact noOcc_of_head_not_mem hc0m j (hp ▸ h1)
  · exact hge
  · exfalso
    cases hd : pre.drop j with
    | nil =>
      have := congrArg List.length hd
      rw [List.length_drop] at this
      simp only [List.length_nil] at this
      omega
    | cons d ds =>
      rw [hd, hp, List.cons_append] at hpy
      have hcd : c0 = d := (List.cons.injEq _ _ _ _ ▸ hpy).1
      exact hc0m (hcd ▸ List.drop_subset j pre (hd ▸ List.mem_cons_self d ds))

/-- The known-command branch's result contains no occurrence of the pattern
literal. -/
theorem noOcc_LIT_known_out {line n : List Char} {m : CommandMapping}
    (hl : List.lookup (String.mk n) COMMAND_MAPPINGS = some m) :
    NoOcc LIT (line.takeWhile isPySpace ++ knownOut m.type.data n) := by
  obtain ⟨lt, hlt⟩ := lit_head
  rw [hlt]
  apply noOcc_append_of_head_not_mem
  · intro hmem
    have := List.mem_takeWhile_imp hmem
    rw [not_pySpace_e] at this
    cases this
  · rw [← hlt]
    have hfree := table_knownOut_litFree _ (mem_of_lookup_eq_some hl)
    exact noOcc_of_occursIn_false lit_ne_nil hfree

/-- The unknown-command branch: when the matched call text occurs only at the
match position, `str.replace` rewrites exactly the matched region. -/
theorem convert_unknown_result {line pre n a r : List Char}
    (hs : searchCall line = some (pre, n, a, r))
    (hu : ∀ j, OccursAt (callText n a) line j → j = pre.length)
    (hl : List.lookup (String.mk n) COMMAND_MAPPINGS = none) :
    convertLine line = pre ++ unknownNew n ++ r := by
  obtain ⟨hline, hne, hword, hnl⟩ := searchCall_decomp hs
  have hline' : line = pre ++ callText n a ++ r := by
    rw [hline]; simp [callText, List.append_assoc]
  have h42 : LIT.length = 42 := by decide
  have hcallne : callText n a ≠ [] := by
    intro h0
    have hlen := congrArg List.length h0
    rw [callText] at hlen
    simp only [List.length_append, List.length_nil, h42] at hlen
    omega
  rw [convertLine_unknown hs hl, hline']
  apply pyReplace_unique hcallne
  intro j hj
  rw [← hline'] at hj
  exact hu j hj

/-! ### Claim theorems -/

/-- C3: for every input line that does not contain the literal substring
`emitCommand(FlexibleCommandFactory::create`, `convert_flexiblecommand_line`
returns the line unchanged — the function is the identity on such lines. -/
theorem C3_no_literal_identity (s : String) (h : ¬ LIT <:+: s.data) :
    convert_flexiblecommand_line s = s := by
  have hno : NoOcc LIT s.data := fun i hi => h (infix_iff_exists_occursAt.mpr ⟨i, hi⟩)
  rw [convert_flexiblecommand_line, convertLine_eq_self_of_noOcc hno]

theorem C3_no_literal_identity_witness :
    ¬ LIT <:+: "  foo(bar);".data ∧
      convert_flexiblecommand_line "  foo(bar);" = "  foo(bar);" :=
  ⟨by decide, C3_no_literal_identity "  foo(bar);" (by decide)⟩

theorem matchStar_eq_takeWhile (p : Char → Bool) (s : List Char) :
    matchStar p s = some (s.takeWhile p) := by
  induction s with
  | nil => rfl
  | cons c cs ih =>
    rw [matchStar, List.takeWhile_cons]
    cases h : p c with
    | true => simp [h, ih]
    | false => simp [h]

/-- C9: `convert_flexiblecommand_line` is total and pure: on every input
string it returns a string and signals no failure — in particular the
indentation extraction `re.match(r'(\s*)', line).group(1)` succeeds on every
string, because a star always matches (`matchStar` never returns `none`).
The embedding `convertE` makes the potential failure point explicit and always
takes the `Except.ok` branch, agreeing with the pure function `convertLine`. -/
theorem C9_total_no_failure (line : List Char) :
    convertE line = Except.ok (convertLine line) := by
  cases hs : searchCall line with
  | none => simp [convertE, convertLine, hs]
  | some q =>
    obtain ⟨pre, n, a, r⟩ := q
    cases hl : List.lookup (String.mk n) COMMAND_MAPPINGS with
    | none => simp [convertE, convertLine, hs, hl]
    | some m => simp [convertE, convertLine, hs, hl, matchStar_eq_takeWhile]

/-- C1: for every input line of the exact form
`<indent>emitCommand(FlexibleCommandFactory::create<Known>(<args>));` where
`<Known>` is a key of `COMMAND_MAPPINGS` and `<args>` contains no occurrence
of `));` (and, lines being single lines, no newline character),
`convert_flexiblecommand_line` returns
`<indent>emitJSON(buildJSON("<jsonType>", {})); // Converted from <Known>`
with `<jsonType>` the mapped type and the leading whitespace preserved
exactly. -/
theorem C1_known_command {indent n a : List Char} {m : CommandMapping}
    (hind : ∀ c ∈ indent, isPySpace c = true)
    (hnl : '\n' ∉ a) (hca : occursIn CLOSE a = false)
    (hm : List.lookup (String.mk n) COMMAND_MAPPINGS = some m) :
    convertLine (indent ++ callText n a) = indent ++ knownOut m.type.data n := by
  have hkey := table_keys_word _ (mem_of_lookup_eq_some hm)
  have hn : n ≠ [] := hkey.1
  have hw : ∀ c ∈ n, isWordChar c = true := hkey.2
  have hcaP : NoOcc CLOSE a := noOcc_of_occursIn_false close_ne_nil hca
  have hsc : searchCall (callText n a) = some ([], n, a, []) := by
    have h0 := searchCall_callText (r := []) hn hw hnl hcaP
    rwa [List.append_nil] at h0
  have hsw := searchCall_ws (s := callText n a) hind
  rw [hsc] at hsw
  simp only [Option.map_some', List.append_nil] at hsw
  rw [convertLine_known hsw hm]
  congr 1
  obtain ⟨lt, hlt⟩ := lit_head
  have hshape : indent ++ callText n a =
      indent ++ 'e' :: (lt ++ (n ++ (['('] ++ (a ++ CLOSE)))) := by
    rw [callText, hlt]
    simp [List.append_assoc]
  rw [hshape, takeWhile_append_all hind not_pySpace_e]

set_option maxHeartbeats 2000000 in
theorem C1_known_command_witness :
    (∀ c ∈ "  ".data, isPySpace c = true) ∧ '\n' ∉ "500".data ∧
      occursIn CLOSE "500".data = false ∧
      List.lookup (String.mk "Delay".data) COMMAND_MAPPINGS =
        some ⟨"DELAY", ["milliseconds"]⟩ ∧
      convertLine ("  ".data ++ callText "Delay".data "500".data) =
        "  ".data ++ knownOut "DELAY".data "Delay".data :=
  ⟨by decide, by decide, by decide, by decide,
    @C1_known_command "  ".data "Delay".data "500".data ⟨"DELAY", ["milliseconds"]⟩
      (by decide) (by decide) (by decide) (by decide)⟩

/-- C2 counterexample: the line
`emitCommand(FlexibleCommandFactory::createFooBar(42));\n` (a readlines line,
with its terminator) contains an unrecognized `createFooBar(...)` call, yet
the result does not end with `// TODO: Add fields` — the terminator survives
the substring replacement and ends the line. -/
theorem C2_counterexample :
    (searchCall "emitCommand(FlexibleCommandFactory::createFooBar(42));\n".data =
      some ([], "FooBar".data, "42".data, ['\n'])) ∧
    List.lookup (String.mk "FooBar".data) COMMAND_MAPPINGS = none ∧
    List.isSuffixOf "// TODO: Add fields".data
      (convertLine "emitCommand(FlexibleCommandFactory::createFooBar(42));\n".data) =
      false := by
  exact ⟨by decide, by decide, by decide⟩

/-- C2 (amended): for every input line of the exact form
`<indent>emitCommand(FlexibleCommandFactory::create<Name>(<args>));` — the
matched call ending the line — where `<Name>` is a non-empty word-character
sequence that is not a key of `COMMAND_MAPPINGS` and `<args>` contains no
occurrence of `));` and no newline, the result is exactly
`<indent>emitJSON(buildJSON("<NAME-UPPERCASED>", {})); // TODO: Add fields`:
it contains `buildJSON("<NAME-UPPERCASED>", {}))`, ends with
`// TODO: Add fields`, and does not contain
`FlexibleCommandFactory::create<Name>`. -/
theorem C2_unknown_command {indent n a : List Char}
    (hind : ∀ c ∈ indent, isPySpace c = true)
    (hn : n ≠ []) (hw : ∀ c ∈ n, isWordChar c = true)
    (hl : List.lookup (String.mk n) COMMAND_MAPPINGS = none)
    (hnl : '\n' ∉ a) (hca : occursIn CLOSE a = false) :
    convertLine (indent ++ callText n a) = indent ++ unknownNew n ∧
    "// TODO: Add fields".data <:+ convertLine (indent ++ callText n a) ∧
    ("buildJSON(\"".data ++ n.map pyUpperChar ++ "\", \x7b\x7d))".data) <:+:
      convertLine (indent ++ callText n a) ∧
    ¬ ("FlexibleCommandFactory::create".data ++ n) <:+:
      convertLine (indent ++ callText n a) := by
  have hcaP : NoOcc CLOSE a := noOcc_of_occursIn_false close_ne_nil hca
  have hsc : searchCall (indent ++ callText n a) = some (indent, n, a, []) := by
    have h0 := searchCall_callText (r := []) hn hw hnl hcaP
    rw [List.append_nil] at h0
    have hsw := searchCall_ws (s := callText n a) hind
    rw [h0] at hsw
    simpa using hsw
  obtain ⟨lt, hlt⟩ := lit_head
  have h42 : LIT.length = 42 := by decide
  have hcallshape : callText n a = 'e' :: (lt ++ (n ++ (['('] ++ (a ++ CLOSE)))) := by
    rw [callText, hlt]
    simp [List.append_assoc]
  have huniq : ∀ j, OccursAt (callText n a) (indent ++ callText n a) j →
      j = indent.length := by
    intro j hj
    have hge : indent.length ≤ j :=
      occursAt_space_bound hind hcallshape (by decide) hj
    have hle : j ≤ indent.length := by
      have hl1 := hj.length_le
      rw [List.length_drop, List.length_append] at hl1
      have hc1 : 0 < (callText n a).length := by
        rw [callText]
        simp only [List.length_append, h42]
        omega
      omega
    omega
  have hout : convertLine (indent ++ callText n a) = indent ++ unknownNew n := by
    have h0 := convert_unknown_result (r := []) (by simpa using hsc)
      (by intro j hj; exact huniq j (by simpa using hj)) hl
    simpa using h0
  rw [hout]
  have hKAsplit : KA = "emitJSON(".data ++ "buildJSON(\"".data := by decide
  have hUBsplit : UB = "\", \x7b\x7d))".data ++ "; // TODO: Add fields".data := by decide
  refine ⟨rfl, ?_, ?_, ?_⟩
  · -- ends with "// TODO: Add fields"
    have h1 : "// TODO: Add fields".data <:+ UB := by decide
    have h2 : UB <:+ indent ++ unknownNew n := by
      have : indent ++ unknownNew n = (indent ++ (KA ++ n.map pyUpperChar)) ++ UB := by
        rw [unknownNew]
        simp [List.append_assoc]
      rw [this]
      exact List.suffix_append _ _
    exact h1.trans h2
  · -- contains buildJSON("<NAME-UPPERCASED>", {}))
    refine ⟨indent ++ "emitJSON(".data, "; // TODO: Add fields".data, ?_⟩
    rw [unknownNew, hKAsplit, hUBsplit]
    simp [List.append_assoc]
  · -- does not contain FlexibleCommandFactory::create<Name>
    intro hinf
    obtain ⟨i, hi⟩ := infix_iff_exists_occursAt.mp hinf
    have hdcp : DC <+: ("FlexibleCommandFactory::create".data ++ n).drop 22 := by
      rw [List.drop_append_eq_append_drop]
      have hdc22 : DC <+: "FlexibleCommandFactory::create".data.drop 22 := by decide
      have h0 : 22 - "FlexibleCommandFactory::create".data.length = 0 := by decide
      rw [h0, List.drop_zero]
      exact hdc22.trans (List.prefix_append _ _)
    have hdcocc : OccursAt DC (indent ++ unknownNew n) (i + 22) := by
      have hm := prefix_drop_mono hi 22
      rw [List.drop_drop] at hm
      exact hdcp.trans hm
    have hnodc : NoOcc DC (indent ++ unknownNew n) := by
      have hdc : DC = ':' :: [':'] := rfl
      rw [hdc]
      exact noOcc_append_of_head_not_mem
        (not_mem_of_all_pySpace hind (by decide))
        (by rw [← hdc]; exact noOcc_DC_unknownNew hw)
    exact hnodc _ hdcocc

set_option maxHeartbeats 2000000 in
theorem C2_unknown_command_witness :
    (∀ c ∈ "  ".data, isPySpace c = true) ∧ ("FooBar".data : List Char) ≠ [] ∧
    (∀ c ∈ "FooBar".data, isWordChar c = true) ∧
    List.lookup (String.mk "FooBar".data) COMMAND_MAPPINGS = none ∧
    '\n' ∉ "42".data ∧ occursIn CLOSE "42".data = false ∧
    (convertLine ("  ".data ++ callText "FooBar".data "42".data) =
        "  ".data ++ unknownNew "FooBar".data ∧
      "// TODO: Add fields".data <:+
        convertLine ("  ".data ++ callText "FooBar".data "42".data) ∧
      ("buildJSON(\"".data ++ "FooBar".data.map pyUpperChar ++ "\", \x7b\x7d))".data) <:+:
        convertLine ("  ".data ++ callText "FooBar".data "42".data) ∧
      ¬ ("FlexibleCommandFactory::create".data ++ "FooBar".data) <:+:
        convertLine ("  ".data ++ callText "FooBar".data "42".data)) :=
  ⟨by decide, by decide, by decide, by decide, by decide, by decide,
    C2_unknown_command (by decide) (by decide) (by decide) (by decide)
      (by decide) (by decide)⟩

/-- C4 counterexample: on the known-command line
`  emitCommand(FlexibleCommandFactory::createDelay(500));\n` the call pattern
matches, the input ends with a line terminator, but the result does not: the
known-command branch rebuilds the line from the leading whitespace only and
discards everything else, including the terminator. -/
theorem C4_counterexample :
    List.isSuffixOf ['\n']
      "  emitCommand(FlexibleCommandFactory::createDelay(500));\n".data = true ∧
    List.isSuffixOf ['\n']
      (convertLine "  emitCommand(FlexibleCommandFactory::createDelay(500));\n".data) =
      false ∧
    convertLine "  emitCommand(FlexibleCommandFactory::createDelay(500));\n".data =
      "  emitJSON(buildJSON(\"DELAY\", \x7b\x7d)); // Converted from Delay".data := by
  exact ⟨by decide, by decide, by decide⟩

/-- C4 (amended): on a matched line containing exactly one occurrence of the
pattern literal, the line splits as `pre ++ callText ++ suffix` around the
matched call; the unknown-command branch preserves every character outside
the matched call, including the trailing terminator
(`result = pre ++ replacement ++ suffix`), while the known-command branch
keeps only the leading whitespace and discards the rest of the line,
terminator included. -/
theorem C4_frame_amended {line pre n a r : List Char}
    (hs : searchCall line = some (pre, n, a, r))
    (hcnt : countOcc LIT line = 1) :
    line = pre ++ callText n a ++ r ∧
    (List.lookup (String.mk n) COMMAND_MAPPINGS = none →
      convertLine line = pre ++ unknownNew n ++ r) ∧
    (∀ m, List.lookup (String.mk n) COMMAND_MAPPINGS = some m →
      convertLine line = line.takeWhile isPySpace ++ knownOut m.type.data n) := by
  obtain ⟨hline, hne, hword, hnl⟩ := searchCall_decomp hs
  have hline' : line = pre ++ callText n a ++ r := by
    rw [hline]; simp [callText, List.append_assoc]
  have hocc := searchCall_occursAt hs
  have huL : ∀ j, OccursAt LIT line j → j = pre.length := fun j hj =>
    occursAt_eq_of_countOcc_le_one lit_ne_nil (by omega) hj hocc
  refine ⟨hline', ?_, ?_⟩
  · intro hl
    apply convert_unknown_result hs ?_ hl
    intro j hj
    have hlitcall : LIT <+: callText n a :=
      ⟨n ++ ['('] ++ a ++ CLOSE, by simp [callText, List.append_assoc]⟩
    exact huL j (hlitcall.trans hj)
  · intro m hl
    exact convertLine_known hs hl

set_option maxHeartbeats 2000000 in
theorem C4_frame_amended_witness :
    searchCall "x emitCommand(FlexibleCommandFactory::createFooBar(1)); y\n".data =
      some ("x ".data, "FooBar".data, "1".data, " y\n".data) ∧
    countOcc LIT "x emitCommand(FlexibleCommandFactory::createFooBar(1)); y\n".data = 1 ∧
    ("x emitCommand(FlexibleCommandFactory::createFooBar(1)); y\n".data =
        "x ".data ++ callText "FooBar".data "1".data ++ " y\n".data ∧
      (List.lookup (String.mk "FooBar".data) COMMAND_MAPPINGS = none →
        convertLine "x emitCommand(FlexibleCommandFactory::createFooBar(1)); y\n".data =
          "x ".data ++ unknownNew "FooBar".data ++ " y\n".data) ∧
      (∀ m, List.lookup (String.mk "FooBar".data) COMMAND_MAPPINGS = some m →
        convertLine "x emitCommand(FlexibleCommandFactory::createFooBar(1)); y\n".data =
          ("x emitCommand(FlexibleCommandFactory::createFooBar(1)); y\n".data).takeWhile
              isPySpace ++ knownOut m.type.data "FooBar".data)) :=
  ⟨by decide, by decide, C4_frame_amended (by decide) (by decide)⟩

/-- C10: `convert_flexiblecommand_line` is idempotent on every line containing
at most one occurrence of the literal `emitCommand(FlexibleCommandFactory::create`:
the output of both rewriting branches contains no occurrence of that literal,
so a second application finds no match and returns its input unchanged. -/
theorem C10_idempotent {line : List Char} (h : countOcc LIT line ≤ 1) :
    convertLine (convertLine line) = convertLine line := by
  cases hs : searchCall line with
  | none =>
    rw [convertLine_of_searchCall_none hs, convertLine_of_searchCall_none hs]
  | some q =>
    obtain ⟨pre, n, a, r⟩ := q
    obtain ⟨hline, hne, hword, hnl⟩ := searchCall_decomp hs
    have hline' : line = pre ++ callText n a ++ r := by
      rw [hline]; simp [callText, List.append_assoc]
    have hocc := searchCall_occursAt hs
    have huL : ∀ j, OccursAt LIT line j → j = pre.length := fun j hj =>
      occursAt_eq_of_countOcc_le_one lit_ne_nil h hj hocc
    cases hl : List.lookup (String.mk n) COMMAND_MAPPINGS with
    | some m =>
      rw [convertLine_known hs hl]
      exact convertLine_eq_self_of_noOcc (noOcc_LIT_known_out hl)
    | none =>
      have hlitcall : LIT <+: callText n a :=
        ⟨n ++ ['('] ++ a ++ CLOSE, by simp [callText, List.append_assoc]⟩
      have hucall : ∀ j, OccursAt (callText n a) line j → j = pre.length := fun j hj =>
        huL j (hlitcall.trans hj)
      rw [convert_unknown_result hs hucall hl]
      apply convertLine_eq_self_of_noOcc
      apply noOcc_LIT_unknown_out hword
      intro j hj
      exact huL j (by rwa [← hline'] at hj)

set_option maxHeartbeats 2000000 in
theorem C10_idempotent_witness :
    countOcc LIT "  emitCommand(FlexibleCommandFactory::createFooBar(42));\n".data ≤ 1 ∧
    convertLine (convertLine
        "  emitCommand(FlexibleCommandFactory::createFooBar(42));\n".data) =
      convertLine "  emitCommand(FlexibleCommandFactory::createFooBar(42));\n".data :=
  ⟨by decide, C10_idempotent (by decide)⟩

theorem convertAll_count (ls : List (List Char)) :
    (convertAll ls).2 = ls.countP (fun l => decide (convertLine l ≠ l)) := by
  induction ls with
  | nil => rfl
  | cons l ls ih =>
    simp only [convertAll, List.countP_cons, ih]
    by_cases hc : convertLine l = l
    · simp [hc]
    · simp only [hc, decide_not]
      simp [hc]
      omega

/-- C5: the conversion count reported in the driver's success message equals
the number of input lines for which `convert_flexiblecommand_line` differs
from the line — the counter is incremented exactly once per changed line. -/
theorem C5_conversion_count {prog f contents : String} {os : OSModel}
    (hr : os.readResult = Except.ok contents) (hw : os.writeResult = Except.ok ()) :
    (pyMain [prog, f] os).stdout =
      ["Converted " ++
          toString ((pyReadlines contents.data).countP
            (fun l => decide (convertLine l ≠ l))) ++
        " FlexibleCommand calls",
       "Output written to: " ++ (f ++ ".converted")] := by
  simp [pyMain, hr, hw, convertAll_count]

theorem C5_conversion_count_witness :
    (OSModel.mk (Except.ok "emitCommand(FlexibleCommandFactory::createDelay(1));\nfoo();\n")
        (Except.ok ())).readResult =
      Except.ok "emitCommand(FlexibleCommandFactory::createDelay(1));\nfoo();\n" ∧
    (pyMain ["prog", "input.cpp"]
        (OSModel.mk
          (Except.ok "emitCommand(FlexibleCommandFactory::createDelay(1));\nfoo();\n")
          (Except.ok ()))).stdout =
      ["Converted " ++
          toString ((pyReadlines
              "emitCommand(FlexibleCommandFactory::createDelay(1));\nfoo();\n".data).countP
            (fun l => decide (convertLine l ≠ l))) ++
        " FlexibleCommand calls",
       "Output written to: " ++ ("input.cpp" ++ ".converted")] :=
  ⟨rfl, C5_conversion_count rfl rfl⟩

/-- C6: the bytes the driver writes to the `.converted` file depend only on
the input file's contents: two runs whose reads return the same contents (and
whose writes succeed) write byte-identical output, namely `driverOutput` of
the contents. -/
theorem C6_deterministic_output {p₁ f₁ p₂ f₂ : String} {os₁ os₂ : OSModel} {c : String}
    (h1r : os₁.readResult = Except.ok c) (h2r : os₂.readResult = Except.ok c)
    (h1w : os₁.writeResult = Except.ok ()) (h2w : os₂.writeResult = Except.ok ()) :
    (pyMain [p₁, f₁] os₁).writes.map Prod.snd =
      (pyMain [p₂, f₂] os₂).writes.map Prod.snd ∧
    (pyMain [p₁, f₁] os₁).writes.map Prod.snd = [String.mk (driverOutput c.data)] := by
  constructor
  · simp [pyMain, h1r, h2r, h1w, h2w]
  · simp [pyMain, h1r, h1w, driverOutput]

theorem C6_deterministic_output_witness :
    (OSModel.mk (Except.ok "foo();\n") (Except.ok ())).readResult =
      Except.ok "foo();\n" ∧
    ((pyMain ["a", "f1"] (OSModel.mk (Except.ok "foo();\n") (Except.ok ()))).writes.map
        Prod.snd =
      (pyMain ["b", "f2"] (OSModel.mk (Except.ok "foo();\n") (Except.ok ()))).writes.map
        Prod.snd ∧
    (pyMain ["a", "f1"] (OSModel.mk (Except.ok "foo();\n") (Except.ok ()))).writes.map
        Prod.snd = [String.mk (driverOutput "foo();\n".data)]) :=
  ⟨rfl, C6_deterministic_output rfl rfl rfl rfl⟩

/-- C7: whenever the command line does not carry exactly one input-file
argument (`len(sys.argv) != 2`), the driver prints the usage message, exits
with status 1, and performs no file operation at all. -/
theorem C7_usage_error {argv : List String} {os : OSModel} (h : argv.length ≠ 2) :
    pyMain argv os = ⟨[USAGE], 1, [], []⟩ := by
  rw [pyMain, if_pos h]

theorem C7_usage_error_witness :
    ([] : List String).length ≠ 2 ∧
    pyMain [] (OSModel.mk (Except.ok "") (Except.ok ())) = ⟨[USAGE], 1, [], []⟩ :=
  ⟨by decide, C7_usage_error (by decide)⟩

/-- C8: with a well-formed command line, any exception raised while opening,
reading, or writing the files is caught at top level: the driver prints the
single line `Error: <description>`, exits with status 1, and the success
output is printed (exit status 0) exactly when no I/O exception occurred. -/
theorem C8_error_handling (prog f e c : String) (os : OSModel) :
    (os.readResult = Except.error e →
      pyMain [prog, f] os = ⟨["Error: " ++ e], 1, [f], []⟩) ∧
    (os.readResult = Except.ok c → os.writeResult = Except.error e →
      pyMain [prog, f] os = ⟨["Error: " ++ e], 1, [f], []⟩) ∧
    ((pyMain [prog, f] os).exitCode = 0 ↔
      (∃ c', os.readResult = Except.ok c') ∧ os.writeResult = Except.ok ()) := by
  refine ⟨?_, ?_, ?_⟩
  · intro hr
    simp [pyMain, hr]
  · intro hr hw
    simp [pyMain, hr, hw]
  · cases hr : os.readResult with
    | error e' => simp [pyMain, hr]
    | ok c' =>
      cases hw : os.writeResult with
      | error e' => simp [pyMain, hr, hw]
      | ok u =>
        cases u
        simp [pyMain, hr, hw]

theorem C8_error_handling_witness :
    (OSModel.mk (Except.error "No such file or directory") (Except.ok ())).readResult =
      Except.error "No such file or directory" ∧
    pyMain ["prog", "missing.cpp"]
        (OSModel.mk (Except.error "No such file or directory") (Except.ok ())) =
      ⟨["Error: " ++ "No such file or directory"], 1, ["missing.cpp"], []⟩ :=
  ⟨rfl,
    (C8_error_handling "prog" "missing.cpp" "No such file or directory" ""
      (OSModel.mk (Except.error "No such file or directory") (Except.ok ()))).1 rfl⟩

end ASTI
